import Mathlib

/-!
Shallow embedding of the kittycat chess engine (src/search.rs, src/evaluate.rs,
src/uci.rs, src/main.rs) for checking the natural-language specification.

The board representation, move generation, check detection and Zobrist hashing
are provided by the external `chess` crate and are outside the repository; they
are modelled abstractly.  A board is a placement of pieces on the 64 squares
plus the side to move; the move generator, make-move, check test and hash are
fields of a `GameOps` record.  Everything written in the repository itself
(evaluation, endgame detection, draw detection, move ordering, the reversible
flag, the negamax/quiescence/iterative-deepening control flow, the time
allocation and the protocol writer's score encoding) is translated directly
from the Rust source.

Machine integers are modelled as Nat/Int.  Where overflow or underflow of a
machine type is the point of a claim, the operation is modelled explicitly
(the u8 `depth - 1` as an `Except` error on underflow, the `as i8` cast as a
two's-complement truncation).  Wall-clock time is not a function of program
state; the two time-up tests of `check_terminate` are modelled by an oracle
`GameOps.timeUp` (constantly false for the `Infinite` mode, arbitrary for the
timed modes), and the `GameTime` budget arithmetic is verified separately as a
pure function.
-/

/-- Piece kinds of the `chess` crate. -/
inductive PieceM where
  | pawn
  | knight
  | bishop
  | rook
  | queen
  | king
  deriving DecidableEq, Fintype

/-- The two colours. -/
inductive ColorM where
  | white
  | black
  deriving DecidableEq, Fintype

/-- A chess move as far as the engine inspects it: source square, destination
square and an optional promotion piece (square indices follow the `chess`
crate: a1 = 0, b1 = 1, ..., h8 = 63). -/
structure MoveM where
  src : Fin 64
  dst : Fin 64
  promotion : Option PieceM
  deriving DecidableEq

/-- A chess position as far as the repository's own code inspects it: the
occupancy of each square and the side to move.  This models the `chess`
crate's `Board` restricted to the queries the engine performs on it
(`piece_on`, `color_on`, `combined`, `pieces`, `color_combined`,
`side_to_move`). -/
structure BoardM where
  occ : Fin 64 → Option (PieceM × ColorM)
  stm : ColorM

/-- `Board::piece_on`: the piece (of either colour) on a square. -/
def pieceOn (b : BoardM) (sq : Fin 64) : Option PieceM :=
  (b.occ sq).map Prod.fst

/-- Material values from `evaluate.rs`. -/
def material : PieceM → Int
  | PieceM.pawn => 100
  | PieceM.knight => 320
  | PieceM.bishop => 330
  | PieceM.rook => 500
  | PieceM.queen => 900
  | PieceM.king => 20000

/-- PAWN_TABLE from `evaluate.rs`, verbatim. -/
def PAWN_TABLE : List Int :=
  [0, 0, 0, 0, 0, 0, 0, 0, 50, 50, 50, 50, 50, 50, 50, 50, 10, 10, 20, 30, 30, 20, 10, 10, 5, 5,
   10, 25, 25, 10, 5, 5, 0, 0, 0, 20, 20, 0, 0, 0, 5, -5, -10, 0, 0, -10, -5, 5, 5, 10, 10, -20,
   -20, 10, 10, 5, 0, 0, 0, 0, 0, 0, 0, 0]

/-- KNIGHT_TABLE from `evaluate.rs`, verbatim. -/
def KNIGHT_TABLE : List Int :=
  [-50, -40, -30, -30, -30, -30, -40, -50, -40, -20, 0, 0, 0, 0, -20, -40, -30, 0, 10, 15, 15, 10,
   0, -30, -30, 5, 15, 20, 20, 15, 5, -30, -30, 0, 15, 20, 20, 15, 0, -30, -30, 5, 10, 15, 15, 10,
   5, -30, -40, -20, 0, 5, 5, 0, -20, -40, -50, -40, -30, -30, -30, -30, -40, -50]

/-- BISHOP_TABLE from `evaluate.rs`, verbatim. -/
def BISHOP_TABLE : List Int :=
  [-20, -10, -10, -10, -10, -10, -10, -20, -10, 0, 0, 0, 0, 0, 0, -10, -10, 0, 5, 10, 10, 5, 0,
   -10, -10, 5, 5, 10, 10, 5, 5, -10, -10, 0, 10, 10, 10, 10, 0, -10, -10, 10, 10, 10, 10, 10, 10,
   -10, -10, 5, 0, 0, 0, 0, 5, -10, -20, -10, -10, -10, -10, -10, -10, -20]

/-- ROOK_TABLE from `evaluate.rs`, verbatim. -/
def ROOK_TABLE : List Int :=
  [0, 0, 0, 0, 0, 0, 0, 0, 5, 10, 10, 10, 10, 10, 10, 5, -5, 0, 0, 0, 0, 0, 0, -5, -5, 0, 0, 0, 0,
   0, 0, -5, -5, 0, 0, 0, 0, 0, 0, -5, -5, 0, 0, 0, 0, 0, 0, -5, -5, 0, 0, 0, 0, 0, 0, -5, 0, 0,
   0, 5, 5, 0, 0, 0]

/-- QUEEN_TABLE from `evaluate.rs`, verbatim. -/
def QUEEN_TABLE : List Int :=
  [-20, -10, -10, -5, -5, -10, -10, -20, -10, 0, 0, 0, 0, 0, 0, -10, -10, 0, 5, 5, 5, 5, 0, -10,
   -5, 0, 5, 5, 5, 5, 0, -5, 0, 0, 5, 5, 5, 5, 0, -5, -10, 5, 5, 5, 5, 5, 0, -10, -10, 0, 5, 0, 0,
   0, 0, -10, -20, -10, -10, -5, -5, -10, -10, -20]

/-- KING_TABLE from `evaluate.rs`, verbatim. -/
def KING_TABLE : List Int :=
  [-30, -40, -40, -50, -50, -40, -40, -30, -30, -40, -40, -50, -50, -40, -40, -30, -30, -40, -40,
   -50, -50, -40, -40, -30, -30, -40, -40, -50, -50, -40, -40, -30, -20, -30, -30, -40, -40, -30,
   -30, -20, -10, -20, -20, -20, -20, -20, -20, -10, 20, 20, 0, 0, 0, 0, 20, 20, 20, 30, 10, 0, 0,
   10, 30, 20]

/-- KING_TABLE_ENDGAME from `evaluate.rs`, verbatim. -/
def KING_TABLE_ENDGAME : List Int :=
  [-50, -40, -30, -20, -20, -30, -40, -50, -30, -20, -10, 0, 0, -10, -20, -30, -30, -10, 20, 30,
   30, 20, -10, -30, -30, -10, 30, 40, 40, 30, -10, -30, -30, -10, 30, 40, 40, 30, -10, -30, -30,
   -10, 20, 30, 30, 20, -10, -30, -30, -30, 0, 0, 0, 0, -30, -30, -50, -30, -30, -30, -30, -30,
   -30, -50]

/-- `piece_square` from `evaluate.rs`: table lookup, with the index mirrored
(`63 - index`) for White and natural for Black, and the king table selected by
the endgame flag. -/
def piece_square (piece : PieceM) (piece_colour : ColorM) (square : Fin 64) (endgame : Bool) :
    Int :=
  let table := match piece with
    | PieceM.pawn => PAWN_TABLE
    | PieceM.knight => KNIGHT_TABLE
    | PieceM.bishop => BISHOP_TABLE
    | PieceM.rook => ROOK_TABLE
    | PieceM.queen => QUEEN_TABLE
    | PieceM.king => if endgame then KING_TABLE_ENDGAME else KING_TABLE
  let index := match piece_colour with
    | ColorM.white => 63 - square.val
    | ColorM.black => square.val
  table.getD index 0

/-- Number of squares holding a `(piece, colour)` pair: the popcount of the
bitboard `board.pieces(piece) & board.color_combined(colour)`. -/
def pieceCount (b : BoardM) (p : PieceM) (c : ColorM) : Nat :=
  (Finset.univ.filter fun sq => b.occ sq = some (p, c)).card

/-- Popcount of `board.pieces(piece)` (both colours). -/
def piecePopcnt (b : BoardM) (p : PieceM) : Nat :=
  (Finset.univ.filter fun sq => pieceOn b sq = some p).card

/-- Popcount of `(knights | bishops) & color_combined(colour)` used by
`is_endgame`. -/
def minorCount (b : BoardM) (c : ColorM) : Nat :=
  (Finset.univ.filter fun sq =>
    b.occ sq = some (PieceM.knight, c) ∨ b.occ sq = some (PieceM.bishop, c)).card

/-- `is_endgame` from `evaluate.rs`: endgame when no queens exist at all, or
when both sides have at most one minor piece and no rooks. -/
def is_endgame (b : BoardM) : Bool :=
  if piecePopcnt b PieceM.queen = 0 then
    true
  else
    let white_endgame := decide (minorCount b ColorM.white ≤ 1)
      && decide (pieceCount b PieceM.rook ColorM.white = 0)
    let black_endgame := decide (minorCount b ColorM.black ≤ 1)
      && decide (pieceCount b PieceM.rook ColorM.black = 0)
    white_endgame && black_endgame

/-- Per-square term of the evaluation sum: material plus piece-square bonus,
positive for White pieces and negative for Black pieces (empty squares
contribute nothing, matching the iteration over `board.combined()`). -/
def evalContrib (b : BoardM) (endgame : Bool) (sq : Fin 64) : Int :=
  match b.occ sq with
  | none => 0
  | some (p, c) =>
    let piece_score := material p + piece_square p c sq endgame
    match c with
    | ColorM.white => piece_score
    | ColorM.black => -piece_score

/-- `evaluate` from `evaluate.rs`: the material-plus-piece-square sum from
White's perspective, negated when Black is to move. -/
def evaluate (b : BoardM) : Int :=
  let endgame := is_endgame b
  let score := Finset.univ.sum (evalContrib b endgame)
  match b.stm with
  | ColorM.white => score
  | ColorM.black => -score

/-- A move-history entry (`History` in `search.rs`): the Zobrist hash of the
position after the move and the reversibility flag computed by `make_move`. -/
structure History where
  hash : Nat
  is_reversible_move : Bool
  deriving DecidableEq

/-- The reversibility flag exactly as `make_move` (search.rs) and the
coordinator's position replay (main.rs) compute it on the position before the
move: the destination square is occupied, or the moved piece is not a pawn. -/
def is_reversible_move (old_pos : BoardM) (m : MoveM) : Bool :=
  (pieceOn old_pos m.dst).isSome || decide (pieceOn old_pos m.src ≠ some PieceM.pawn)

/-- The reversibility flag as the specification states it: true exactly when
the move was not a pawn move and not a capture (a capture being a move whose
destination square holds an opposing piece). -/
def spec_reversible (old_pos : BoardM) (m : MoveM) : Bool :=
  let is_pawn_move : Bool := pieceOn old_pos m.src = some PieceM.pawn
  let is_capture : Bool := match old_pos.occ m.dst, old_pos.occ m.src with
    | some (_, cd), some (_, cs) => cd ≠ cs
    | _, _ => false
  !is_pawn_move && !is_capture

/-- The scanning loop of `is_fifty_move_rule` (search.rs): walk the history
from the oldest entry, incrementing a counter on reversible entries and
resetting it on others, returning true as soon as the counter reaches 100. -/
def fiftyGo : List History → Nat → Bool
  | [], _ => false
  | h :: t, count =>
    let count' := if h.is_reversible_move then count + 1 else 0
    if 100 ≤ count' then true else fiftyGo t count'

/-- `is_fifty_move_rule` from `search.rs`. -/
def is_fifty_move_rule (hist : List History) : Bool :=
  fiftyGo hist 0

/-- The fifty-move condition as the claim reads it: the history ends in a
contiguous suffix of 100 entries all marked reversible. -/
def FiftySuffix (hist : List History) : Prop :=
  100 ≤ hist.length ∧ ∀ h ∈ hist.drop (hist.length - 100), h.is_reversible_move = true

instance : DecidablePred FiftySuffix := by
  intro hist
  unfold FiftySuffix
  infer_instance

/-- A contiguous run of 100 reversible entries anywhere in the history. -/
def FiftyWindow (hist : List History) : Prop :=
  ∃ i, i + 100 ≤ hist.length ∧ ∀ h ∈ (hist.drop i).take 100, h.is_reversible_move = true

/-- `is_insufficient_material` from `search.rs`: no queens, no rooks, not both
sides with a bishop, not both sides with a knight, no pawns. -/
def is_insufficient_material (b : BoardM) : Bool :=
  if 0 < pieceCount b PieceM.queen ColorM.white ∨ 0 < pieceCount b PieceM.queen ColorM.black then
    false
  else if 0 < pieceCount b PieceM.rook ColorM.white ∨ 0 < pieceCount b PieceM.rook ColorM.black then
    false
  else if 0 < pieceCount b PieceM.bishop ColorM.white ∧
      0 < pieceCount b PieceM.bishop ColorM.black then
    false
  else if 0 < pieceCount b PieceM.knight ColorM.white ∧
      0 < pieceCount b PieceM.knight ColorM.black then
    false
  else if 0 < pieceCount b PieceM.pawn ColorM.white ∨ 0 < pieceCount b PieceM.pawn ColorM.black then
    false
  else
    true

/-- `is_threefold_repetition` from `search.rs`: the current position's hash
occurs at least three times among the history entries. -/
def is_threefold_repetition (currentHash : Nat) (hist : List History) : Bool :=
  3 ≤ (hist.filter fun h => h.hash = currentHash).length

/-- `INFINITY` from `search.rs`. -/
def INFINITY : Int := 10000

/-- `MAX_PLY` from `search.rs`. -/
def MAX_PLY : Nat := 64

/-- Commands the search worker can receive on its control channel
(`EngineToSearch`). -/
inductive Cmd where
  | start
  | stop
  | quit
  deriving DecidableEq

/-- `SearchTerminate` from `search.rs`. -/
inductive Terminate where
  | stop
  | quit
  deriving DecidableEq

/-- The mutable search context: the fields of `SearchState` that the search
reads or writes (`nodes`, `ply`, `seldepth`, `terminate`), the shared board
and history, and the pending messages of the control channel (`cmds`).
`start_time`/`allocated_time` are wall-clock quantities; their two
elapsed-time comparisons are modelled by the `GameOps.timeUp` oracle. -/
structure SState where
  nodes : Nat
  ply : Nat
  seldepth : Nat
  terminate : Option Terminate
  cmds : List Cmd
  board : BoardM
  history : List History

/-- The operations the engine obtains from the external `chess` crate,
plus the wall-clock oracle.  `legalCaptures` models `MoveGen::new_legal`
restricted by `set_iterator_mask(color_combined(!side_to_move))` (moves whose
destination holds an opposing piece); `legalQuiets` models the remaining
legal moves produced after `set_iterator_mask(!EMPTY)`; the two lists are
disjoint and together enumerate all legal moves.  `timeUp` answers the
elapsed-time comparisons of `check_terminate`: constantly false for the
`Infinite` mode, arbitrary for `MoveTime`/`GameTime`. -/
structure GameOps where
  legalCaptures : BoardM → List MoveM
  legalQuiets : BoardM → List MoveM
  applyMove : BoardM → MoveM → BoardM
  inCheck : BoardM → Bool
  hash : BoardM → Nat
  timeUp : Nat → Bool

/-- The polling condition of `negamax` (search.rs line 201):
`nodes % 0x2000 == 0`. -/
def negamaxPolls (nodes : Nat) : Bool :=
  nodes % 0x2000 == 0

/-- The polling condition of `quiescence` (search.rs line 284):
`nodes & 0x2000 == 0` (bitwise AND, as written in the source). -/
def quiescencePolls (nodes : Nat) : Bool :=
  nodes &&& 0x2000 == 0

/-- `check_terminate` from `search.rs`: non-blockingly poll the control
channel (consuming one message; `Stop`/`Quit` set `terminate`, anything else
is discarded), then set `terminate = Stop` if the mode's time budget has
elapsed. -/
def check_terminate (G : GameOps) (st : SState) : SState :=
  let st1 := match st.cmds with
    | [] => st
    | cmd :: rest =>
      match cmd with
      | Cmd.stop => { st with cmds := rest, terminate := some Terminate.stop }
      | Cmd.quit => { st with cmds := rest, terminate := some Terminate.quit }
      | Cmd.start => { st with cmds := rest }
  if G.timeUp st1.nodes then { st1 with terminate := some Terminate.stop } else st1

/-- `make_move` from `search.rs`: apply the move to the shared board, push a
history entry (hash of the new position, reversibility computed on the old
position), increment `ply` and update `seldepth`. -/
def make_move (G : GameOps) (st : SState) (m : MoveM) : SState :=
  let old_pos := st.board
  let new_board := G.applyMove st.board m
  let entry : History := ⟨G.hash new_board, is_reversible_move old_pos m⟩
  let ply' := st.ply + 1
  { st with
    board := new_board
    history := st.history ++ [entry]
    ply := ply'
    seldepth := if st.seldepth < ply' then ply' else st.seldepth }

/-- `unmake_move` from `search.rs`: decrement `ply`, restore the saved
position, pop the last history entry. -/
def unmake_move (st : SState) (old_pos : BoardM) : SState :=
  { st with ply := st.ply - 1, board := old_pos, history := st.history.dropLast }

/-- `is_draw` from `search.rs`. -/
def is_draw (G : GameOps) (st : SState) : Bool :=
  is_insufficient_material st.board
    || is_threefold_repetition (G.hash st.board) st.history
    || is_fifty_move_rule st.history

/-- `move_ordering` from `search.rs`, transcribed directly: iterate the
capture moves, then the remaining legal moves; when a PV hint is present only
a move equal to the hint is pushed (with class 0), and when no hint is present
every move is pushed (captures with class 1, the rest with class 2); finally
sort by class.  The source's `sort_unstable_by_key` is modelled by a stable
sort on the class key (the order within a class is unspecified). -/
def move_ordering (G : GameOps) (board : BoardM) (pv : Option MoveM) : List MoveM :=
  let scoredCaptures := (G.legalCaptures board).filterMap fun legal =>
    match pv with
    | some pvm => if legal = pvm then some (legal, (0 : Nat)) else none
    | none => some (legal, 1)
  let scoredRest := (G.legalQuiets board).filterMap fun legal =>
    match pv with
    | some pvm => if legal = pvm then some (legal, (0 : Nat)) else none
    | none => some (legal, 2)
  let moves := scoredCaptures ++ scoredRest
  ((moves.insertionSort fun a b => a.2 ≤ b.2).map Prod.fst)

/-- Accumulator of the quiescence capture loop: either still iterating with
the current `alpha`, best line and state, or finished early by a beta
cutoff. -/
inductive QAcc where
  | running (alpha : Int) (pv : List MoveM) (st : SState)
  | finished (value : Int) (pv : List MoveM) (st : SState)

/-- One iteration of the quiescence capture loop (search.rs lines 317-337):
make the capture, recurse with the negated window into a fresh `node_pv`,
unmake, then apply the fail-hard cutoff and the alpha/PV update. -/
def quiescence_loop_step (G : GameOps)
    (child : SState → List MoveM → Int → Int → Int × List MoveM × SState)
    (beta : Int) (acc : QAcc) (m : MoveM) : QAcc :=
  match acc with
  | QAcc.finished v pvv st => QAcc.finished v pvv st
  | QAcc.running alpha pvv st =>
    let old_pos := st.board
    let st1 := make_move G st m
    let res := child st1 [] (-beta) (-alpha)
    let score := -res.1
    let node_pv := res.2.1
    let st2 := unmake_move res.2.2 old_pos
    if beta ≤ score then QAcc.finished beta pvv st2
    else if alpha < score then QAcc.running score (m :: node_pv) st2
    else QAcc.running alpha pvv st2

/-- `quiescence` from `search.rs`: poll on the (bitwise-AND) cadence, honour
`terminate`, guard on `ply > MAX_PLY`, count the node, stand pat on the static
evaluation, then search the capture moves only.  `fuel` is an artificial
structural-recursion bound: with `fuel ≥ MAX_PLY + 2 - ply` the fuel-exhausted
branch (which returns the static evaluation, exactly like the `ply` guard) is
unreachable, because `ply` grows by one per recursion level and the `ply`
guard fires first. -/
def quiescence (G : GameOps) : Nat → SState → List MoveM → Int → Int →
    Int × List MoveM × SState
  | fuel, st, pv, alpha, beta =>
    let st := if quiescencePolls st.nodes then check_terminate G st else st
    if st.terminate.isSome then (0, pv, st)
    else if MAX_PLY < st.ply then (evaluate st.board, pv, st)
    else
      match fuel with
      | 0 => (evaluate st.board, pv, st)
      | fuel + 1 =>
        let st := { st with nodes := st.nodes + 1 }
        let eval := evaluate st.board
        if beta ≤ eval then (beta, pv, st)
        else
          let alpha := if alpha < eval then eval else alpha
          let legal_moves := G.legalCaptures st.board
          match legal_moves.foldl
              (quiescence_loop_step G
                (fun st2 pv2 a2 b2 => quiescence G fuel st2 pv2 a2 b2) beta)
              (QAcc.running alpha pv st) with
          | QAcc.running a pvv stt => (a, pvv, stt)
          | QAcc.finished v pvv stt => (v, pvv, stt)

/-- Accumulator of the negamax move loop: the current `alpha`, the PVS flag,
the best line and the state, or an early beta-cutoff result. -/
inductive LoopAcc where
  | running (alpha : Int) (doPvs : Bool) (pv : List MoveM) (st : SState)
  | finished (value : Int) (pv : List MoveM) (st : SState)

/-- Common tail of one negamax move-loop iteration (search.rs lines 250-264):
unmake the move, then fail-hard cutoff on `eval_score ≥ beta`, and on
`eval_score > alpha` raise alpha, enable PVS and set the best line to the move
followed by the child's line. -/
def negamax_after_child (beta alpha : Int) (doPvs : Bool) (pvv : List MoveM) (m : MoveM)
    (old_pos : BoardM) (eval_score : Int) (node_pv : List MoveM) (stA : SState) : LoopAcc :=
  let st2 := unmake_move stA old_pos
  if beta ≤ eval_score then LoopAcc.finished beta pvv st2
  else if alpha < eval_score then LoopAcc.running eval_score true (m :: node_pv) st2
  else LoopAcc.running alpha doPvs pvv st2

/-- One iteration of the negamax move loop (search.rs lines 231-265): make the
move; if the resulting position is a draw the child score is 0 without
recursing; otherwise recurse with `depth - 1` (PVS scout window first once
`do_pvs` is set, re-searching with the full window when the scout score lands
strictly inside the window).  The u8 subtraction `depth - 1` is modelled
exactly: if `depth = 0` when the subtraction is reached, the iteration
produces `Except.error ()` (the underflow). -/
def negamax_loop_step (G : GameOps)
    (child : SState → List MoveM → Nat → Int → Int → Except Unit (Int × List MoveM × SState))
    (depth : Nat) (beta : Int) (acc : Except Unit LoopAcc) (m : MoveM) :
    Except Unit LoopAcc :=
  match acc with
  | Except.error e => Except.error e
  | Except.ok (LoopAcc.finished v pvv st) => Except.ok (LoopAcc.finished v pvv st)
  | Except.ok (LoopAcc.running alpha doPvs pvv st) =>
    let old_pos := st.board
    let st1 := make_move G st m
    if is_draw G st1 then
      Except.ok (negamax_after_child beta alpha doPvs pvv m old_pos 0 [] st1)
    else
      match depth with
      | 0 => Except.error ()
      | d + 1 =>
        if doPvs then
          match child st1 [] d (-alpha - 1) (-alpha) with
          | Except.error e => Except.error e
          | Except.ok (v1, npv1, stA) =>
            let e1 := -v1
            if alpha < e1 ∧ e1 < beta then
              match child stA npv1 d (-beta) (-alpha) with
              | Except.error e => Except.error e
              | Except.ok (v2, npv2, stB) =>
                Except.ok (negamax_after_child beta alpha doPvs pvv m old_pos (-v2) npv2 stB)
            else
              Except.ok (negamax_after_child beta alpha doPvs pvv m old_pos e1 npv1 stA)
        else
          match child st1 [] d (-beta) (-alpha) with
          | Except.error e => Except.error e
          | Except.ok (v, npv, stA) =>
            Except.ok (negamax_after_child beta alpha doPvs pvv m old_pos (-v) npv stA)

/-- `negamax` from `search.rs`: poll on the modulo cadence, honour
`terminate`, guard on `ply > MAX_PLY`, count the node, apply the check
extension, tail-call quiescence at depth 0, otherwise run the PVS move loop
over the ordered moves, with mate / stalemate scores when there are no legal
moves.  `fuel` is the same artificial structural bound as in `quiescence`;
the result is in `Except`, whose only error is the u8 underflow of
`depth - 1` in the move loop. -/
def negamax (G : GameOps) : Nat → SState → List MoveM → Nat → Int → Int →
    Except Unit (Int × List MoveM × SState)
  | fuel, st, pv, depth, alpha, beta =>
    let st := if negamaxPolls st.nodes then check_terminate G st else st
    if st.terminate.isSome then Except.ok (0, pv, st)
    else if MAX_PLY < st.ply then Except.ok (evaluate st.board, pv, st)
    else
      match fuel with
      | 0 => Except.ok (evaluate st.board, pv, st)
      | fuel + 1 =>
        let st := { st with nodes := st.nodes + 1 }
        let is_check := G.inCheck st.board
        let depth := if is_check then depth + 1 else depth
        if depth = 0 then
          Except.ok (quiescence G fuel st pv alpha beta)
        else
          let ordered_moves := move_ordering G st.board pv.head?
          if ordered_moves.isEmpty then
            if is_check then Except.ok (-INFINITY + (st.ply : Int), pv, st)
            else Except.ok (0, pv, st)
          else
            match ordered_moves.foldl
                (negamax_loop_step G
                  (fun st2 pv2 d2 a2 b2 => negamax G fuel st2 pv2 d2 a2 b2) depth beta)
                (Except.ok (LoopAcc.running alpha false pv st)) with
            | Except.error e => Except.error e
            | Except.ok (LoopAcc.running a _ pvv stt) => Except.ok (a, pvv, stt)
            | Except.ok (LoopAcc.finished v pvv stt) => Except.ok (v, pvv, stt)

/-- Negamax fuel used by the driver: strictly more than the `MAX_PLY + 1`
recursion levels the `ply` guard permits, so the artificial fuel-exhaustion
branch is unreachable on driver-initiated searches. -/
def searchFuel : Nat := 66

/-- The iterative-deepening loop of `Search::iterative_deepening` (search.rs
lines 151-189) for the `Infinite` and `MoveTime` modes, whose driver-level
`is_time_up` test is constantly false (in-search time-up for `MoveTime` is
delivered through `check_terminate` via the `GameOps.timeUp` oracle).  `fuel`
counts the remaining depths, starting at `MAX_PLY` with `depth = 1`, so fuel
exhaustion is exactly the loop condition `depth <= MAX_PLY` turning false.
Each iteration runs negamax on the persistent root PV; when the search was not
cancelled the first root-PV move (if any) becomes the best move and the depth
advances, and when it was cancelled the loop stops.  The returned
`Option MoveM` is the value the source passes to `best_move.unwrap()`: `none`
models the panic. -/
def iterative_deepening_loop (G : GameOps) :
    Nat → SState → Option MoveM → List MoveM → Nat →
    Except Unit (Option MoveM × Option Terminate)
  | 0, st, best, _, _ => Except.ok (best, st.terminate)
  | fuel + 1, st, best, rootPv, depth =>
    match negamax G searchFuel st rootPv depth (-INFINITY) INFINITY with
    | Except.error e => Except.error e
    | Except.ok (_, pv', st') =>
      if st'.terminate.isSome then Except.ok (best, st'.terminate)
      else
        let best' := match pv'.head? with
          | some m => some m
          | none => best
        iterative_deepening_loop G fuel st' best' pv' (depth + 1)

/-- `Search::iterative_deepening` (search.rs): run the deepening loop from
depth 1 with no best move and an empty root PV.  The first component of the
result is unwrapped unconditionally by the source. -/
def iterative_deepening (G : GameOps) (st : SState) :
    Except Unit (Option MoveM × Option Terminate) :=
  iterative_deepening_loop G MAX_PLY st none [] 1

/-- Rust's `as i8` cast on an integer already reduced modulo the machine
width: keep the low 8 bits and reinterpret them in two's complement. -/
def toI8 (x : Int) : Int :=
  if 128 ≤ x % 256 then x % 256 - 256 else x % 256

/-- The score encoding of the protocol writer (`Uci::control_thread`,
uci.rs lines 196-205): when `|cp| > INFINITY / 2` report a mate score
`(sign * (plies / 2 + plies % 2)) as i8` with `plies = INFINITY - |cp|`,
otherwise report the raw centipawn value.  The pair is `(cp, mate)` as in the
source.  Divisions are Rust's truncating i16 divisions, modelled by
`Int.tdiv`/`Int.tmod`. -/
def uci_score (cp : Int) : Option Int × Option Int :=
  if Int.tdiv INFINITY 2 < |cp| then
    let mate_in_plies := INFINITY - |cp|
    let sign := Int.sign cp
    let mate_in_moves := Int.tdiv mate_in_plies 2 + Int.tmod mate_in_plies 2
    (none, some (toI8 (sign * mate_in_moves)))
  else
    (some cp, none)

/-- The mate-score encoding exactly as the specification states it, with no
intermediate narrowing: mate when `|cp| > INFINITY/2`, with
`plies = INFINITY - |cp|`, `moves = plies/2 + plies%2` and the sign of `cp`
preserved; otherwise the raw centipawn value. -/
def spec_uci_score (cp : Int) : Option Int × Option Int :=
  if Int.tdiv INFINITY 2 < |cp| then
    let plies := INFINITY - |cp|
    let moves := Int.tdiv plies 2 + Int.tmod plies 2
    (none, some (Int.sign cp * moves))
  else
    (some cp, none)

/-- `GameTime` (uci.rs), with the four `chrono::Duration` clocks measured in
nanoseconds (the resolution at which `chrono` divides durations) and
`moves_to_go` the optional u8 move counter. -/
structure GameTimeM where
  white_time : Int
  black_time : Int
  white_increment : Int
  black_increment : Int
  moves_to_go : Option Nat

/-- Nanoseconds in `n` milliseconds. -/
def msNs (n : Int) : Int := n * 1000000

/-- The `GameTime` budget computation of `Search::iterative_deepening`
(search.rs lines 120-147): pick the side-to-move's clock and increment;
divide the clock by `moves_to_go` when it is present and nonzero, keep the
whole clock when it is zero, and divide by 30 when it is absent; the
allocation is `slice + increment - 100 ms`, and `to_std().unwrap_or_default()`
turns a negative `chrono` duration into the zero `std` duration. -/
def allocated_time (gametime : GameTimeM) (stm : ColorM) : Int :=
  let clock := match stm with
    | ColorM.white => gametime.white_time
    | ColorM.black => gametime.black_time
  let increment := match stm with
    | ColorM.white => gametime.white_increment
    | ColorM.black => gametime.black_increment
  let time := match gametime.moves_to_go with
    | some moves_to_go =>
      if moves_to_go = 0 then clock else Int.tdiv clock (moves_to_go : Int)
    | none => Int.tdiv clock 30
  let time_slice := time + increment - msNs 100
  if time_slice < 0 then 0 else time_slice

/-- The time-allocation rule as the claim states it: the slice is `clock / m`
for `moves_to_go = Some m` with `m > 0`, the whole clock for `m = 0`,
`clock / 30` when absent; the budget is `slice + increment - 100 ms` clamped
to zero when negative. -/
def spec_allocated_time (gametime : GameTimeM) (stm : ColorM) : Int :=
  let clock := match stm with
    | ColorM.white => gametime.white_time
    | ColorM.black => gametime.black_time
  let increment := match stm with
    | ColorM.white => gametime.white_increment
    | ColorM.black => gametime.black_increment
  let slice := match gametime.moves_to_go with
    | some m => if 0 < m then Int.tdiv clock (m : Int) else clock
    | none => Int.tdiv clock 30
  max (slice + increment - msNs 100) 0

/-- A bound on the absolute value of each piece-square table, per piece. -/
def pstBound : PieceM → Int
  | PieceM.pawn => 50
  | PieceM.knight => 50
  | PieceM.bishop => 20
  | PieceM.rook => 10
  | PieceM.queen => 20
  | PieceM.king => 50

/-- A per-occupied-square bound on the evaluation contribution once the
king's ±20000 material is cancelled: material plus table bound for the five
ordinary pieces, table bound alone for the king. -/
def pieceWeight : PieceM → Int
  | PieceM.pawn => 150
  | PieceM.knight => 370
  | PieceM.bishop => 350
  | PieceM.rook => 510
  | PieceM.queen => 920
  | PieceM.king => 50

/-- The king-material part of a square's evaluation contribution. -/
def kingAdj (b : BoardM) (sq : Fin 64) : Int :=
  match b.occ sq with
  | some (PieceM.king, ColorM.white) => 20000
  | some (PieceM.king, ColorM.black) => -20000
  | _ => 0

/-- The `pieceWeight` of the piece on a square (0 for an empty square). -/
def squareWeight (b : BoardM) (sq : Fin 64) : Int :=
  match b.occ sq with
  | none => 0
  | some (p, _) => pieceWeight p

/-- Standard-army material bounds: at most the pieces of the initial position
per side (8 pawns, 2 knights, 2 bishops, 2 rooks, 1 queen) and exactly one
king per side. -/
def StdMaterial (b : BoardM) : Prop :=
  ∀ c : ColorM,
    pieceCount b PieceM.pawn c ≤ 8 ∧ pieceCount b PieceM.knight c ≤ 2 ∧
    pieceCount b PieceM.bishop c ≤ 2 ∧ pieceCount b PieceM.rook c ≤ 2 ∧
    pieceCount b PieceM.queen c ≤ 1 ∧ pieceCount b PieceM.king c = 1

instance : DecidablePred StdMaterial := by
  intro b
  unfold StdMaterial
  infer_instance

/-- Occupancy of the position `7k/8/8/8/8/8/QQQQQQQQ/RNBQKBNR b - - 0 1`:
White has the full first-rank army plus eight promoted queens on the second
rank (nine queens in all), Black has a bare king on h8.  The `chess` crate
accepts this position (one king per side, no pawns on the back ranks, and
White — the side not to move — is not in check). -/
def nineQueensOcc : List (Option (PieceM × ColorM)) :=
  [some (PieceM.rook, ColorM.white), some (PieceM.knight, ColorM.white),
   some (PieceM.bishop, ColorM.white), some (PieceM.queen, ColorM.white),
   some (PieceM.king, ColorM.white), some (PieceM.bishop, ColorM.white),
   some (PieceM.knight, ColorM.white), some (PieceM.rook, ColorM.white),
   some (PieceM.queen, ColorM.white), some (PieceM.queen, ColorM.white),
   some (PieceM.queen, ColorM.white), some (PieceM.queen, ColorM.white),
   some (PieceM.queen, ColorM.white), some (PieceM.queen, ColorM.white),
   some (PieceM.queen, ColorM.white), some (PieceM.queen, ColorM.white),
   none, none, none, none, none, none, none, none,
   none, none, none, none, none, none, none, none,
   none, none, none, none, none, none, none, none,
   none, none, none, none, none, none, none, none,
   none, none, none, none, none, none, none, none,
   none, none, none, none, none, none, none, some (PieceM.king, ColorM.black)]

/-- The nine-queens position, Black to move. -/
def nineQueensBoard : BoardM :=
  ⟨fun sq => nineQueensOcc.getD sq.val none, ColorM.black⟩

/-- A bare-kings position (e1, e8), White to move. -/
def kingsOnlyBoard : BoardM :=
  ⟨fun sq =>
    if sq.val = 4 then some (PieceM.king, ColorM.white)
    else if sq.val = 60 then some (PieceM.king, ColorM.black)
    else none, ColorM.white⟩

/-- Kings on e1/e8 plus a white queen on a1, White to move. -/
def queenKingsBoard : BoardM :=
  ⟨fun sq =>
    if sq.val = 0 then some (PieceM.queen, ColorM.white)
    else if sq.val = 4 then some (PieceM.king, ColorM.white)
    else if sq.val = 60 then some (PieceM.king, ColorM.black)
    else none, ColorM.white⟩

/-- White knight b1, black pawn c3, kings e1/e8, White to move. -/
def captureBoard : BoardM :=
  ⟨fun sq =>
    if sq.val = 1 then some (PieceM.knight, ColorM.white)
    else if sq.val = 18 then some (PieceM.pawn, ColorM.black)
    else if sq.val = 4 then some (PieceM.king, ColorM.white)
    else if sq.val = 60 then some (PieceM.king, ColorM.black)
    else none, ColorM.white⟩

/-- The capture Nb1xc3 on `captureBoard`. -/
def knightTakesPawn : MoveM := ⟨⟨1, by decide⟩, ⟨18, by decide⟩, none⟩

/-- A history made of 100 reversible entries followed by one non-reversible
entry: the engine's fifty-move scan fires on it although it does not end in a
reversible suffix of length 100. -/
def histRun : List History := List.replicate 100 ⟨0, true⟩ ++ [⟨0, false⟩]

/-- A board with no pieces at all, used where the board content is irrelevant
because the search terminates before inspecting it. -/
def emptyBoard : BoardM := ⟨fun _ => none, ColorM.white⟩

/-- Game backend for a `go movetime 0` search: the elapsed-time comparison of
`check_terminate` is true from the start (0 ms have always elapsed). -/
def timeUpOps : GameOps :=
  ⟨fun _ => [], fun _ => [⟨⟨1, by decide⟩, ⟨16, by decide⟩, none⟩], fun b _ => b,
   fun _ => false, fun _ => 0, fun _ => true⟩

/-- Game backend for a `go infinite` search (never times out) on a position
with one quiet legal move. -/
def idleOps : GameOps :=
  ⟨fun _ => [], fun _ => [⟨⟨1, by decide⟩, ⟨16, by decide⟩, none⟩], fun b _ => b,
   fun _ => false, fun _ => 0, fun _ => false⟩

/-- The search state at the start of `iterative_deepening`: fresh
`SearchState::default()` counters with the given board, pending control
messages and history. -/
def initState (b : BoardM) (cmds : List Cmd) : SState :=
  ⟨0, 0, 0, none, cmds, b, []⟩

/-- A quiet move (b1 to f3). -/
def moveA : MoveM := ⟨⟨1, by decide⟩, ⟨21, by decide⟩, none⟩

/-- A second quiet move (g1 to f3), distinct from `moveA`. -/
def moveB : MoveM := ⟨⟨6, by decide⟩, ⟨21, by decide⟩, none⟩

/-- Game backend for a position whose legal moves are the two quiet moves
`moveA` and `moveB` (no captures). -/
def twoQuietOps : GameOps :=
  ⟨fun _ => [], fun _ => [moveA, moveB], fun b _ => b, fun _ => false, fun _ => 0,
   fun _ => false⟩

/-- The `go wtime 60000 btime 60000 movestogo 40` time control (no
increments). -/
def exampleGameTime : GameTimeM := ⟨msNs 60000, msNs 60000, 0, 0, some 40⟩

/-- The first `k` entries of a history exist and are all reversible. -/
def PrefixRev (l : List History) (k : Nat) : Prop :=
  k ≤ l.length ∧ ∀ h ∈ l.take k, h.is_reversible_move = true

/-- C1: refuted as stated.  `move_ordering` does not return every legal move
when a PV hint is supplied: on a position with two quiet legal moves and the
hint `moveA`, the returned list is just `[moveA]` — the other legal move
`moveB` is omitted (the source pushes a move only when it equals the hint).
Without a hint every legal move is returned, captures before the rest. -/
theorem move_ordering_drops_unhinted_moves :
    move_ordering twoQuietOps emptyBoard (some moveA) = [moveA] ∧
    moveB ∈ twoQuietOps.legalQuiets emptyBoard ∧
    moveB ∉ move_ordering twoQuietOps emptyBoard (some moveA) ∧
    move_ordering twoQuietOps emptyBoard none = [moveA, moveB] := by
  refine ⟨by decide, by decide, by decide, by decide⟩

/-- C2: refuted as stated.  For the capture Nb1xc3 the source computes
`reversible = true` (the destination is occupied, and `occupied || not-pawn`
is true), while the specification's rule — not a pawn move *and* not a
capture — makes every capture non-reversible. -/
theorem make_move_marks_capture_reversible :
    is_reversible_move captureBoard knightTakesPawn = true ∧
    spec_reversible captureBoard knightTakesPawn = false := by
  refine ⟨by decide, by decide⟩

/-- C3: refuted as stated.  When the very first cancellation poll fires —
either because the `MoveTime` budget is 0 ms (`go movetime 0`), or because a
`Stop` is already queued when the search begins — depth-1 negamax returns
before producing a root PV, the driver records no best move, and the value
reaching `best_move.unwrap()` is `None`: the unwrap panics.  Both scenarios
are computed here on a position that does have a legal move. -/
theorem iterative_deepening_no_best_move_on_immediate_stop :
    iterative_deepening timeUpOps (initState emptyBoard []) =
      Except.ok (none, some Terminate.stop) ∧
    iterative_deepening idleOps (initState emptyBoard [Cmd.stop]) =
      Except.ok (none, some Terminate.stop) :=
  ⟨rfl, rfl⟩

/-- C6: refuted as stated.  Quiescence polls when `nodes & 0x2000 == 0`, not
when `nodes % 8192 == 0`: at `nodes = 1` quiescence polls but negamax does
not, and at `nodes = 8192` negamax polls but quiescence does not. -/
theorem quiescence_poll_cadence_differs :
    quiescencePolls 1 = true ∧ negamaxPolls 1 = false ∧
    quiescencePolls 8192 = false ∧ negamaxPolls 8192 = true := by
  refine ⟨by decide, by decide, by decide, by decide⟩

/-- C4 counterexample: on a history of 100 reversible entries followed by one
non-reversible entry, `is_fifty_move_rule` returns true although the history
does not end in a reversible suffix of length 100. -/
theorem fifty_move_rule_fires_without_reversible_suffix :
    is_fifty_move_rule histRun = true ∧ ¬ FiftySuffix histRun := by
  refine ⟨by decide, by decide⟩

/-- C5 counterexample: the position `7k/8/8/8/8/8/QQQQQQQQ/RNBQKBNR b`, which
the board library accepts, evaluates to -10260: the static evaluation is not
bounded by `INFINITY = 10000`. -/
theorem evaluate_exceeds_infinity_on_nine_queens :
    evaluate nineQueensBoard = -10260 ∧ INFINITY < |evaluate nineQueensBoard| := by
  refine ⟨by decide, by decide⟩

/-- C8 counterexample: at `cp = 6000` (an emittable score: a static advantage
of roughly six queens) the writer computes `plies = 4000`, `moves = 2000`,
and the `as i8` cast turns `sign * moves = 2000` into `-48`: the reported
mate score is not `sign × moves` and does not even preserve the sign. -/
theorem uci_mate_score_truncates :
    uci_score 6000 = (none, some (-48)) ∧ spec_uci_score 6000 = (none, some 2000) := by
  refine ⟨by decide, by decide⟩

/-- The `as i8` model is the identity on values that fit in a signed byte. -/
theorem toI8_eq_self (x : Int) (h1 : -128 ≤ x) (h2 : x ≤ 127) : toI8 x = x := by
  unfold toI8
  omega

/-- C7: confirmed.  The `GameTime` allocation of `iterative_deepening` equals
the claimed rule — slice `clock / m` for `moves_to_go = Some m` with `m > 0`,
the whole clock for `m = 0`, `clock / 30` when absent, then
`slice + increment - 100 ms` clamped to zero when negative — and on
`go wtime 60000 btime 60000 movestogo 40` it allocates exactly 1400 ms. -/
theorem game_time_allocation_matches_spec :
    (∀ (gametime : GameTimeM) (stm : ColorM),
      allocated_time gametime stm = spec_allocated_time gametime stm) ∧
    allocated_time exampleGameTime ColorM.white = msNs 1400 := by
  constructor
  · intro gametime stm
    unfold allocated_time spec_allocated_time
    cases stm <;> rcases hm : gametime.moves_to_go with _ | m <;> simp only [hm] <;>
      rw [max_def] <;> split_ifs <;> omega
  · decide

/-- C8: amended.  The writer reports a mate score exactly when
`|cp| > INFINITY / 2`, and the reported value is the i8 truncation of
`sign × (plies/2 + plies%2)`; the untruncated formula of the claim is what
the writer actually prints whenever the result fits in a signed byte — in
particular for every genuine mate score, `|cp| ≥ 9746` — and centipawn values
`|cp| ≤ INFINITY / 2` are always passed through raw. -/
theorem uci_mate_score_encoding_amended :
    (∀ cp : Int, (uci_score cp).2.isSome = true ↔ Int.tdiv INFINITY 2 < |cp|) ∧
    (∀ cp : Int, |cp| ≤ INFINITY → 9746 ≤ |cp| → uci_score cp = spec_uci_score cp) ∧
    (∀ cp : Int, |cp| ≤ Int.tdiv INFINITY 2 → uci_score cp = spec_uci_score cp) := by
  refine ⟨?_, ?_, ?_⟩
  · intro cp
    unfold uci_score
    split_ifs with h
    · simpa using h
    · simpa using h
  · intro cp hle hge
    have htd : Int.tdiv INFINITY 2 = 5000 := by decide
    have h5000 : Int.tdiv INFINITY 2 < |cp| := by
      unfold INFINITY at *
      omega
    unfold uci_score spec_uci_score
    rw [if_pos h5000, if_pos h5000]
    show (none, some (toI8 (Int.sign cp *
        (Int.tdiv (INFINITY - |cp|) 2 + Int.tmod (INFINITY - |cp|) 2)))) =
      (none, some (Int.sign cp * (Int.tdiv (INFINITY - |cp|) 2 + Int.tmod (INFINITY - |cp|) 2)))
    have hplies0 : 0 ≤ INFINITY - |cp| := by unfold INFINITY at *; omega
    have hdiv : Int.tdiv (INFINITY - |cp|) 2 = (INFINITY - |cp|) / 2 :=
      Int.tdiv_eq_ediv hplies0 (by norm_num)
    have hmod : Int.tmod (INFINITY - |cp|) 2 = (INFINITY - |cp|) % 2 :=
      Int.tmod_eq_emod hplies0 (by norm_num)
    rw [hdiv, hmod]
    have hmoves : 0 ≤ (INFINITY - |cp|) / 2 + (INFINITY - |cp|) % 2 ∧
        (INFINITY - |cp|) / 2 + (INFINITY - |cp|) % 2 ≤ 127 := by
      unfold INFINITY at *
      omega
    have hcpne : cp ≠ 0 := by
      intro h0
      rw [h0] at hge
      simp at hge
    rcases lt_or_gt_of_ne hcpne with hneg | hpos
    · rw [Int.sign_eq_neg_one_of_neg hneg, toI8_eq_self]
      · omega
      · omega
    · rw [Int.sign_eq_one_of_pos hpos, toI8_eq_self]
      · omega
      · omega
  · intro cp hle
    unfold uci_score spec_uci_score
    rw [if_neg (not_lt.mpr hle), if_neg (not_lt.mpr hle)]

/-- C8 witness: the amended encoding at concrete inputs — the mate score
`cp = 9999` (mate in 1) and the centipawn score `cp = 100`. -/
theorem uci_mate_score_encoding_witness :
    uci_score 9999 = spec_uci_score 9999 ∧ uci_score 100 = spec_uci_score 100 :=
  ⟨uci_mate_score_encoding_amended.2.1 9999 (by decide) (by decide),
   uci_mate_score_encoding_amended.2.2 100 (by decide)⟩

/-- C9: confirmed.  `is_endgame` is monotone under queen removal: if a
position is classified as endgame and a queen of either colour stands on some
square, removing it leaves the position classified as endgame (the queen test
can only flip from "queens exist" to "no queens", and the minor-piece and
rook counts are untouched). -/
theorem is_endgame_monotone_queen_removal (b : BoardM) (sq : Fin 64) (c : ColorM)
    (hq : b.occ sq = some (PieceM.queen, c)) (he : is_endgame b = true) :
    is_endgame ⟨Function.update b.occ sq none, b.stm⟩ = true := by
  set b' : BoardM := ⟨Function.update b.occ sq none, b.stm⟩ with hb'
  have hoccne : ∀ s : Fin 64, s ≠ sq → b'.occ s = b.occ s := by
    intro s hs
    simp [hb', Function.update_noteq hs]
  have hoccsq : b'.occ sq = none := by
    simp [hb']
  have hmin : ∀ c', minorCount b' c' = minorCount b c' := by
    intro c'
    unfold minorCount
    congr 1
    apply Finset.filter_congr
    intro s _
    by_cases hs : s = sq
    · subst hs
      rw [hoccsq, hq]
      simp
    · rw [hoccne s hs]
  have hrook : ∀ c', pieceCount b' PieceM.rook c' = pieceCount b PieceM.rook c' := by
    intro c'
    unfold pieceCount
    congr 1
    apply Finset.filter_congr
    intro s _
    by_cases hs : s = sq
    · subst hs
      rw [hoccsq, hq]
      simp
    · rw [hoccne s hs]
  have hqcount : ¬ piecePopcnt b PieceM.queen = 0 := by
    have hmem : sq ∈ Finset.univ.filter fun s => pieceOn b s = some PieceM.queen := by
      simp [pieceOn, hq]
    intro h0
    unfold piecePopcnt at h0
    rw [Finset.card_eq_zero] at h0
    rw [h0] at hmem
    simp at hmem
  unfold is_endgame at he
  rw [if_neg hqcount] at he
  simp only [Bool.and_eq_true, decide_eq_true_eq] at he
  obtain ⟨⟨hw1, hw2⟩, hb1, hb2⟩ := he
  unfold is_endgame
  by_cases hz : piecePopcnt b' PieceM.queen = 0
  · rw [if_pos hz]
  · rw [if_neg hz]
    simp only [Bool.and_eq_true, decide_eq_true_eq]
    refine ⟨⟨?_, ?_⟩, ?_, ?_⟩
    · rw [hmin]
      exact hw1
    · rw [hrook]
      exact hw2
    · rw [hmin]
      exact hb1
    · rw [hrook]
      exact hb2

/-- C9 witness: removing the white queen from a1 on a queen-plus-kings
endgame position keeps the position an endgame. -/
theorem is_endgame_monotone_witness :
    queenKingsBoard.occ (0 : Fin 64) = some (PieceM.queen, ColorM.white) ∧
    is_endgame queenKingsBoard = true ∧
    is_endgame ⟨Function.update queenKingsBoard.occ (0 : Fin 64) none,
      queenKingsBoard.stm⟩ = true :=
  ⟨by decide, by decide,
   is_endgame_monotone_queen_removal queenKingsBoard (0 : Fin 64) ColorM.white
     (by decide) (by decide)⟩

/-- One negamax move-loop iteration never introduces the underflow error when
the (post-extension) depth is nonzero and the child search is error-free. -/
theorem negamax_loop_step_isOk (G : GameOps)
    (child : SState → List MoveM → Nat → Int → Int → Except Unit (Int × List MoveM × SState))
    (depth : Nat) (beta : Int)
    (hchild : ∀ st pv d a bb, ∃ v, child st pv d a bb = Except.ok v)
    (hdepth : depth ≠ 0) (acc : LoopAcc) (m : MoveM) :
    ∃ acc', negamax_loop_step G child depth beta (Except.ok acc) m = Except.ok acc' := by
  cases acc with
  | finished v pvv st => exact ⟨_, rfl⟩
  | running alpha doPvs pvv st =>
    unfold negamax_loop_step
    dsimp only
    by_cases hdraw : is_draw G (make_move G st m) = true
    · rw [if_pos hdraw]
      exact ⟨_, rfl⟩
    · rw [if_neg hdraw]
      cases depth with
      | zero => exact absurd rfl hdepth
      | succ d =>
        dsimp only
        by_cases hp : doPvs
        · rw [if_pos hp]
          obtain ⟨⟨v1, npv1, stA⟩, h1⟩ := hchild (make_move G st m) [] d (-alpha - 1) (-alpha)
          rw [h1]
          dsimp only
          by_cases hw : alpha < -v1 ∧ -v1 < beta
          · rw [if_pos hw]
            obtain ⟨⟨v2, npv2, stB⟩, h2⟩ := hchild stA npv1 d (-beta) (-alpha)
            rw [h2]
            exact ⟨_, rfl⟩
          · rw [if_neg hw]
            exact ⟨_, rfl⟩
        · rw [if_neg hp]
          obtain ⟨⟨v1, npv1, stA⟩, h1⟩ := hchild (make_move G st m) [] d (-beta) (-alpha)
          rw [h1]
          exact ⟨_, rfl⟩

/-- The whole negamax move loop is error-free under the same conditions. -/
theorem negamax_loop_foldl_isOk (G : GameOps)
    (child : SState → List MoveM → Nat → Int → Int → Except Unit (Int × List MoveM × SState))
    (depth : Nat) (beta : Int)
    (hchild : ∀ st pv d a bb, ∃ v, child st pv d a bb = Except.ok v)
    (hdepth : depth ≠ 0) (moves : List MoveM) :
    ∀ acc : LoopAcc, ∃ w,
      moves.foldl (negamax_loop_step G child depth beta) (Except.ok acc) = Except.ok w := by
  induction moves with
  | nil => exact fun acc => ⟨acc, rfl⟩
  | cons m rest ih =>
    intro acc
    rw [List.foldl_cons]
    obtain ⟨acc', hstep⟩ := negamax_loop_step_isOk G child depth beta hchild hdepth acc m
    rw [hstep]
    exact ih acc'

/-- C10: confirmed.  For every game backend, state and window, `negamax`
never reaches the u8 subtraction `depth - 1` with `depth = 0`: the move loop
runs only in the branch where the post-extension depth is nonzero (the
`depth == 0` test tail-calls quiescence after the check extension, which only
increases depth, and before any move is applied), so the modelled underflow
error is unreachable and the search always returns a value. -/
theorem negamax_no_underflow :
    ∀ (fuel : Nat) (G : GameOps) (st : SState) (pv : List MoveM) (depth : Nat)
      (alpha beta : Int), ∃ v, negamax G fuel st pv depth alpha beta = Except.ok v := by
  intro fuel
  induction fuel with
  | zero =>
    intro G st pv depth alpha beta
    simp only [negamax]
    split_ifs <;> exact ⟨_, rfl⟩
  | succ f ih =>
    intro G st pv depth alpha beta
    simp only [negamax]
    by_cases h1 : (if negamaxPolls st.nodes then check_terminate G st else st).terminate.isSome
    · rw [if_pos h1]
      exact ⟨_, rfl⟩
    · rw [if_neg h1]
      by_cases h2 : MAX_PLY < (if negamaxPolls st.nodes then check_terminate G st else st).ply
      · rw [if_pos h2]
        exact ⟨_, rfl⟩
      · rw [if_neg h2]
        dsimp only
        set st1 := if negamaxPolls st.nodes then check_terminate G st else st with hst1
        set st2 : SState := { st1 with nodes := st1.nodes + 1 } with hst2
        set depth2 := if G.inCheck st2.board then depth + 1 else depth with hdepth2
        by_cases h3 : depth2 = 0
        · rw [if_pos h3]
          exact ⟨_, rfl⟩
        · rw [if_neg h3]
          by_cases h4 : (move_ordering G st2.board pv.head?).isEmpty
          · rw [if_pos h4]
            by_cases h5 : G.inCheck st2.board = true
            · rw [if_pos h5]
              exact ⟨_, rfl⟩
            · rw [if_neg h5]
              exact ⟨_, rfl⟩
          · rw [if_neg h4]
            obtain ⟨w, hw⟩ := negamax_loop_foldl_isOk G
              (fun st3 pv3 d3 a3 b3 => negamax G f st3 pv3 d3 a3 b3) depth2 beta
              (fun st3 pv3 d3 a3 b3 => ih G st3 pv3 d3 a3 b3) h3
              (move_ordering G st2.board pv.head?)
              (LoopAcc.running alpha false pv st2)
            rw [hw]
            cases w with
            | running a dp pvv stt => exact ⟨_, rfl⟩
            | finished v pvv stt => exact ⟨_, rfl⟩

/-- Unfolding a reversible prefix across a cons cell. -/
theorem prefixRev_cons (h : History) (t : List History) (k : Nat) (hk : 0 < k) :
    PrefixRev (h :: t) k ↔ h.is_reversible_move = true ∧ PrefixRev t (k - 1) := by
  unfold PrefixRev
  rw [List.take_cons hk]
  simp only [List.length_cons, List.forall_mem_cons]
  constructor
  · rintro ⟨hlen, hh, hall⟩
    exact ⟨hh, by omega, hall⟩
  · rintro ⟨hh, hlen, hall⟩
    exact ⟨by omega, hh, hall⟩

/-- A shorter prefix of reversible entries follows from a longer one. -/
theorem prefixRev_mono (l : List History) (k k' : Nat) (hk : k' ≤ k) :
    PrefixRev l k → PrefixRev l k' := by
  rintro ⟨hlen, hall⟩
  refine ⟨le_trans hk hlen, ?_⟩
  intro x hx
  apply hall
  have hxx : List.take k' l = List.take k' (List.take k l) := by
    rw [List.take_take, min_eq_left hk]
  rw [hxx] at hx
  exact List.mem_of_mem_take hx

/-- A 100-entry reversible window in a cons list either starts at the head or
lies in the tail. -/
theorem window_cons (h : History) (t : List History) :
    FiftyWindow (h :: t) ↔ PrefixRev (h :: t) 100 ∨ FiftyWindow t := by
  unfold FiftyWindow PrefixRev
  constructor
  · rintro ⟨i, hi, hall⟩
    cases i with
    | zero =>
      left
      refine ⟨by simpa using hi, ?_⟩
      intro x hx
      apply hall
      simpa using hx
    | succ j =>
      right
      refine ⟨j, ?_, ?_⟩
      · simp only [List.length_cons] at hi
        omega
      · intro x hx
        apply hall
        simpa [List.drop_succ_cons] using hx
  · rintro (⟨hlen, hall⟩ | ⟨j, hj, hall⟩)
    · refine ⟨0, by simpa using hlen, ?_⟩
      intro x hx
      apply hall
      simpa using hx
    · refine ⟨j + 1, ?_, ?_⟩
      · simp only [List.length_cons]
        omega
      · intro x hx
        apply hall
        simpa [List.drop_succ_cons] using hx

/-- The scanning loop with running count `c < 100` returns true exactly when
the remaining list starts with `100 - c` reversible entries (continuing the
run in progress) or contains a full 100-entry reversible window. -/
theorem fiftyGo_iff (l : List History) : ∀ c : Nat, c < 100 →
    (fiftyGo l c = true ↔ PrefixRev l (100 - c) ∨ FiftyWindow l) := by
  induction l with
  | nil =>
    intro c hc
    rw [show fiftyGo [] c = false from rfl]
    simp only [Bool.false_eq_true, false_iff]
    rintro (⟨hlen, _⟩ | ⟨i, hi, _⟩)
    · simp only [List.length_nil, Nat.le_zero] at hlen
      omega
    · simp only [List.length_nil] at hi
      omega
  | cons h t ih =>
    intro c hc
    by_cases hrev : h.is_reversible_move = true
    · by_cases hc99 : c = 99
      · subst hc99
        have hl : fiftyGo (h :: t) 99 = true := by
          simp [fiftyGo, hrev]
        rw [hl]
        simp only [true_iff]
        left
        rw [show (100 : Nat) - 99 = 1 from rfl, prefixRev_cons h t 1 (by norm_num)]
        exact ⟨hrev, by simp [PrefixRev]⟩
      · have hstep : fiftyGo (h :: t) c = fiftyGo t (c + 1) := by
          simp only [fiftyGo, hrev, if_true]
          rw [if_neg (by omega)]
        rw [hstep, ih (c + 1) (by omega), window_cons,
          prefixRev_cons h t (100 - c) (by omega)]
        have h99 : 100 - (c + 1) = 100 - c - 1 := by omega
        constructor
        · rintro (hp | hw)
          · left
            rw [h99] at hp
            exact ⟨hrev, hp⟩
          · right
            right
            exact hw
        · rintro (⟨_, hp⟩ | hp100 | hwt)
          · left
            rw [h99]
            exact hp
          · left
            have hmono := prefixRev_mono (h :: t) 100 (100 - c) (by omega) hp100
            rw [prefixRev_cons h t (100 - c) (by omega)] at hmono
            rw [h99]
            exact hmono.2
          · right
            exact hwt
    · have hstep : fiftyGo (h :: t) c = fiftyGo t 0 := by
        simp [fiftyGo, hrev]
      rw [hstep, ih 0 (by omega), window_cons]
      have hnot : ∀ k, 0 < k → ¬ PrefixRev (h :: t) k := by
        intro k hk hp
        rw [prefixRev_cons h t k hk] at hp
        exact hrev hp.1
      simp only [Nat.sub_zero]
      constructor
      · rintro (hp | hw)
        · right
          right
          refine ⟨0, by simpa using hp.1, ?_⟩
          intro x hx
          apply hp.2
          simpa using hx
        · right
          right
          exact hw
      · rintro (hp | hp100 | hwt)
        · exact absurd hp (hnot _ (by omega))
        · exact absurd hp100 (hnot _ (by norm_num))
        · right
          exact hwt

/-- C4: amended.  `is_fifty_move_rule` returns true if and only if the
history contains a contiguous run of 100 entries all marked reversible
*anywhere* — not only as a suffix.  In particular (see the counterexample) a
100-entry reversible run that is later followed by a non-reversible entry
still triggers the rule, because the scan returns as soon as the running
count reaches 100. -/
theorem fifty_move_rule_iff_reversible_window (hist : List History) :
    is_fifty_move_rule hist = true ↔ FiftyWindow hist := by
  unfold is_fifty_move_rule
  rw [fiftyGo_iff hist 0 (by norm_num)]
  simp only [Nat.sub_zero]
  constructor
  · rintro (hp | hw)
    · refine ⟨0, by simpa using hp.1, ?_⟩
      intro x hx
      apply hp.2
      simpa using hx
    · exact hw
  · intro hw
    right
    exact hw

/-- Every piece-square table entry is bounded by `pstBound` of its piece. -/
theorem pst_abs : ∀ (p : PieceM) (c : ColorM) (sq : Fin 64) (e : Bool),
    |piece_square p c sq e| ≤ pstBound p := by decide

/-- With the king's ±20000 material removed, each square's evaluation
contribution is bounded by the piece weight of its occupant. -/
theorem evalContrib_sub_kingAdj_abs (b : BoardM) (e : Bool) (sq : Fin 64) :
    |evalContrib b e sq - kingAdj b sq| ≤ squareWeight b sq := by
  rcases hocc : b.occ sq with _ | ⟨p, c⟩
  · simp [evalContrib, kingAdj, squareWeight, hocc]
  · have hpst := pst_abs p c sq e
    rw [abs_le] at hpst
    cases p <;> cases c <;>
      simp only [evalContrib, kingAdj, squareWeight, hocc, material, pieceWeight,
        pstBound] at hpst ⊢ <;>
      rw [abs_le] <;> constructor <;> omega

/-- Summing a constant over the squares holding a given piece and colour
counts that piece. -/
theorem sum_if_occ (b : BoardM) (p : PieceM) (c : ColorM) (k : Int) :
    (Finset.univ.sum fun sq => if b.occ sq = some (p, c) then k else 0) =
      (pieceCount b p c : Int) * k := by
  unfold pieceCount
  rw [← Finset.sum_filter, Finset.sum_const, nsmul_eq_mul]

/-- The king-material part of a square splits into two indicators. -/
theorem kingAdj_eq (b : BoardM) (sq : Fin 64) :
    kingAdj b sq =
      (if b.occ sq = some (PieceM.king, ColorM.white) then (20000 : Int) else 0) +
      (if b.occ sq = some (PieceM.king, ColorM.black) then (-20000 : Int) else 0) := by
  rcases hocc : b.occ sq with _ | ⟨p, c⟩
  · simp [kingAdj, hocc]
  · cases p <;> cases c <;> simp [kingAdj, hocc]

/-- The square weight splits into the twelve piece-and-colour indicators. -/
theorem squareWeight_eq (b : BoardM) (sq : Fin 64) :
    squareWeight b sq =
      (if b.occ sq = some (PieceM.pawn, ColorM.white) then (150 : Int) else 0) +
      (if b.occ sq = some (PieceM.pawn, ColorM.black) then (150 : Int) else 0) +
      (if b.occ sq = some (PieceM.knight, ColorM.white) then (370 : Int) else 0) +
      (if b.occ sq = some (PieceM.knight, ColorM.black) then (370 : Int) else 0) +
      (if b.occ sq = some (PieceM.bishop, ColorM.white) then (350 : Int) else 0) +
      (if b.occ sq = some (PieceM.bishop, ColorM.black) then (350 : Int) else 0) +
      (if b.occ sq = some (PieceM.rook, ColorM.white) then (510 : Int) else 0) +
      (if b.occ sq = some (PieceM.rook, ColorM.black) then (510 : Int) else 0) +
      (if b.occ sq = some (PieceM.queen, ColorM.white) then (920 : Int) else 0) +
      (if b.occ sq = some (PieceM.queen, ColorM.black) then (920 : Int) else 0) +
      (if b.occ sq = some (PieceM.king, ColorM.white) then (50 : Int) else 0) +
      (if b.occ sq = some (PieceM.king, ColorM.black) then (50 : Int) else 0) := by
  rcases hocc : b.occ sq with _ | ⟨p, c⟩
  · simp [squareWeight, hocc]
  · cases p <;> cases c <;> simp [squareWeight, pieceWeight, hocc]

/-- C5: amended.  With at most the standard army per side (8 pawns, 2
knights, 2 bishops, 2 rooks, 1 queen, exactly one king each) the static
evaluation is bounded by the sentinel: the two kings' 20000-point material
cancels and the rest is at most 2 x 4630 = 9260 < INFINITY.  Without such a
material bound the claim is false — see the nine-queens counterexample. -/
theorem evaluate_bounded_for_standard_material (b : BoardM) (h : StdMaterial b) :
    |evaluate b| ≤ INFINITY := by
  obtain ⟨hpw, hnw, hbw, hrw, hqw, hkw⟩ := h ColorM.white
  obtain ⟨hpb, hnb, hbb, hrb, hqb, hkb⟩ := h ColorM.black
  have key : ∀ e : Bool, |Finset.univ.sum (evalContrib b e)| ≤ 10000 := by
    intro e
    have hsplit : Finset.univ.sum (evalContrib b e) =
        Finset.univ.sum (fun sq => evalContrib b e sq - kingAdj b sq) +
        Finset.univ.sum (fun sq => kingAdj b sq) := by
      rw [← Finset.sum_add_distrib]
      apply Finset.sum_congr rfl
      intro sq _
      ring
    have hking : Finset.univ.sum (fun sq => kingAdj b sq) = 0 := by
      calc Finset.univ.sum (fun sq => kingAdj b sq)
          = Finset.univ.sum (fun sq =>
              (if b.occ sq = some (PieceM.king, ColorM.white) then (20000 : Int) else 0) +
              (if b.occ sq = some (PieceM.king, ColorM.black) then (-20000 : Int) else 0)) :=
            Finset.sum_congr rfl fun sq _ => kingAdj_eq b sq
        _ = (pieceCount b PieceM.king ColorM.white : Int) * 20000 +
            (pieceCount b PieceM.king ColorM.black : Int) * (-20000) := by
            rw [Finset.sum_add_distrib, sum_if_occ, sum_if_occ]
        _ = 0 := by
            rw [hkw, hkb]
            norm_num
    have habs : |Finset.univ.sum (fun sq => evalContrib b e sq - kingAdj b sq)| ≤
        Finset.univ.sum (fun sq => squareWeight b sq) :=
      le_trans (Finset.abs_sum_le_sum_abs _ _)
        (Finset.sum_le_sum fun sq _ => evalContrib_sub_kingAdj_abs b e sq)
    have hwsum : Finset.univ.sum (fun sq => squareWeight b sq) ≤ 9260 := by
      have hexp : Finset.univ.sum (fun sq => squareWeight b sq) =
          (pieceCount b PieceM.pawn ColorM.white : Int) * 150 +
          (pieceCount b PieceM.pawn ColorM.black : Int) * 150 +
          (pieceCount b PieceM.knight ColorM.white : Int) * 370 +
          (pieceCount b PieceM.knight ColorM.black : Int) * 370 +
          (pieceCount b PieceM.bishop ColorM.white : Int) * 350 +
          (pieceCount b PieceM.bishop ColorM.black : Int) * 350 +
          (pieceCount b PieceM.rook ColorM.white : Int) * 510 +
          (pieceCount b PieceM.rook ColorM.black : Int) * 510 +
          (pieceCount b PieceM.queen ColorM.white : Int) * 920 +
          (pieceCount b PieceM.queen ColorM.black : Int) * 920 +
          (pieceCount b PieceM.king ColorM.white : Int) * 50 +
          (pieceCount b PieceM.king ColorM.black : Int) * 50 := by
        calc Finset.univ.sum (fun sq => squareWeight b sq)
            = Finset.univ.sum (fun sq =>
                (if b.occ sq = some (PieceM.pawn, ColorM.white) then (150 : Int) else 0) +
                (if b.occ sq = some (PieceM.pawn, ColorM.black) then (150 : Int) else 0) +
                (if b.occ sq = some (PieceM.knight, ColorM.white) then (370 : Int) else 0) +
                (if b.occ sq = some (PieceM.knight, ColorM.black) then (370 : Int) else 0) +
                (if b.occ sq = some (PieceM.bishop, ColorM.white) then (350 : Int) else 0) +
                (if b.occ sq = some (PieceM.bishop, ColorM.black) then (350 : Int) else 0) +
                (if b.occ sq = some (PieceM.rook, ColorM.white) then (510 : Int) else 0) +
                (if b.occ sq = some (PieceM.rook, ColorM.black) then (510 : Int) else 0) +
                (if b.occ sq = some (PieceM.queen, ColorM.white) then (920 : Int) else 0) +
                (if b.occ sq = some (PieceM.queen, ColorM.black) then (920 : Int) else 0) +
                (if b.occ sq = some (PieceM.king, ColorM.white) then (50 : Int) else 0) +
                (if b.occ sq = some (PieceM.king, ColorM.black) then (50 : Int) else 0)) :=
              Finset.sum_congr rfl fun sq _ => squareWeight_eq b sq
          _ = _ := by
              rw [Finset.sum_add_distrib, Finset.sum_add_distrib, Finset.sum_add_distrib,
                Finset.sum_add_distrib, Finset.sum_add_distrib, Finset.sum_add_distrib,
                Finset.sum_add_distrib, Finset.sum_add_distrib, Finset.sum_add_distrib,
                Finset.sum_add_distrib, Finset.sum_add_distrib, sum_if_occ, sum_if_occ,
                sum_if_occ, sum_if_occ, sum_if_occ, sum_if_occ, sum_if_occ, sum_if_occ,
                sum_if_occ, sum_if_occ, sum_if_occ, sum_if_occ]
      rw [hexp]
      have c01 : (pieceCount b PieceM.pawn ColorM.white : Int) * 150 ≤ 8 * 150 :=
        mul_le_mul_of_nonneg_right (by exact_mod_cast hpw) (by norm_num)
      have c02 : (pieceCount b PieceM.pawn ColorM.black : Int) * 150 ≤ 8 * 150 :=
        mul_le_mul_of_nonneg_right (by exact_mod_cast hpb) (by norm_num)
      have c03 : (pieceCount b PieceM.knight ColorM.white : Int) * 370 ≤ 2 * 370 :=
        mul_le_mul_of_nonneg_right (by exact_mod_cast hnw) (by norm_num)
      have c04 : (pieceCount b PieceM.knight ColorM.black : Int) * 370 ≤ 2 * 370 :=
        mul_le_mul_of_nonneg_right (by exact_mod_cast hnb) (by norm_num)
      have c05 : (pieceCount b PieceM.bishop ColorM.white : Int) * 350 ≤ 2 * 350 :=
        mul_le_mul_of_nonneg_right (by exact_mod_cast hbw) (by norm_num)
      have c06 : (pieceCount b PieceM.bishop ColorM.black : Int) * 350 ≤ 2 * 350 :=
        mul_le_mul_of_nonneg_right (by exact_mod_cast hbb) (by norm_num)
      have c07 : (pieceCount b PieceM.rook ColorM.white : Int) * 510 ≤ 2 * 510 :=
        mul_le_mul_of_nonneg_right (by exact_mod_cast hrw) (by norm_num)
      have c08 : (pieceCount b PieceM.rook ColorM.black : Int) * 510 ≤ 2 * 510 :=
        mul_le_mul_of_nonneg_right (by exact_mod_cast hrb) (by norm_num)
      have c09 : (pieceCount b PieceM.queen ColorM.white : Int) * 920 ≤ 1 * 920 :=
        mul_le_mul_of_nonneg_right (by exact_mod_cast hqw) (by norm_num)
      have c10 : (pieceCount b PieceM.queen ColorM.black : Int) * 920 ≤ 1 * 920 :=
        mul_le_mul_of_nonneg_right (by exact_mod_cast hqb) (by norm_num)
      have c11 : (pieceCount b PieceM.king ColorM.white : Int) * 50 ≤ 1 * 50 :=
        mul_le_mul_of_nonneg_right (by exact_mod_cast hkw.le) (by norm_num)
      have c12 : (pieceCount b PieceM.king ColorM.black : Int) * 50 ≤ 1 * 50 :=
        mul_le_mul_of_nonneg_right (by exact_mod_cast hkb.le) (by norm_num)
      linarith
    calc |Finset.univ.sum (evalContrib b e)|
        = |Finset.univ.sum (fun sq => evalContrib b e sq - kingAdj b sq) +
            Finset.univ.sum (fun sq => kingAdj b sq)| := by rw [hsplit]
      _ = |Finset.univ.sum (fun sq => evalContrib b e sq - kingAdj b sq)| := by
          rw [hking, add_zero]
      _ ≤ Finset.univ.sum (fun sq => squareWeight b sq) := habs
      _ ≤ 9260 := hwsum
      _ ≤ 10000 := by norm_num
  simp only [evaluate, INFINITY]
  cases hstm : b.stm with
  | white => exact key (is_endgame b)
  | black =>
    rw [abs_neg]
    exact key (is_endgame b)

/-- C5 witness: the bare-kings position satisfies the standard-material
bounds, so its evaluation is within the sentinel. -/
theorem evaluate_bounded_witness :
    StdMaterial kingsOnlyBoard ∧ |evaluate kingsOnlyBoard| ≤ INFINITY :=
  ⟨by decide, evaluate_bounded_for_standard_material kingsOnlyBoard (by decide)⟩
